import Mathlib

/-!
Shallow embedding of the `fft-rs` repository (an iterative radix-2
Cooley–Tukey FFT over a bespoke complex-number type) together with proofs of
the specified properties.

The embedding follows the two source files:

* `src/numbers/complex.rs` — the `Complex` value type (here `Cpx`, since
  `Complex` is taken by Mathlib).  Rust's `f64` is modelled by an abstract
  carrier `α` with the field operations plus the transcendental operations the
  code uses (`cos`, `sin`, the constant `PI`, and the `%` operator on
  doubles), bundled in the `RealLike` class.  All arithmetic is exact: the
  claims under study are stated in terms of exact values (the spec's tests
  use integer-valued inputs on which `f64` arithmetic is exact, and the
  twiddle-cache invariant is about the mathematical values).  `ℝ` with the
  genuine `Real.cos`/`Real.sin`/`Real.pi` is the faithful instance; `ℚ` is an
  exact executable carrier used to evaluate the transform on concrete inputs
  (its trigonometric fields are irrelevant placeholders — every theorem below
  that touches trigonometric values is stated over `ℝ` or generically).

* `src/lib.rs` — the `FFT` engine.  Rust indexing (`data[i]`, `Vec::swap`,
  `self.twiddle_cache[k]`) panics when out of bounds; that effect is modelled
  by `Option`: every indexed read is `l[i]?` and every indexed write goes
  through `setChecked`, so a panic becomes `none`.  The `while` loop of
  `fft_inplace` is modelled with explicit fuel (`stageLoop`); fuel exhaustion
  with the loop guard still true also yields `none`, and the proofs show the
  fuel passed by `fft_inplace` always suffices.  `usize` is modelled by `ℕ`
  (buffer sizes can never approach `usize::MAX`).  `(n as f64).log2() as u32`
  is modelled by the exact base-2 floor logarithm `floorLog2`, which agrees
  with the float computation on every power of two (the only lengths
  `bit_reverse_permutation` is reached with, per the `debug_assert`).
-/

/-- Carrier for the `f64` scalars: a field together with the transcendental
operations used by the source (`f64::cos`, `f64::sin`, `std::f64::consts::PI`)
and the `%` operator on doubles (`fmod`, remainder truncated toward zero). -/
class RealLike (α : Type) extends Field α where
  cos : α → α
  sin : α → α
  pi : α
  fmod : α → α → α

/-- Truncation toward zero on `ℚ`, matching how `f64::trunc` acts on exactly
representable values: `Int.tdiv` is T-division. -/
def ratTrunc (q : ℚ) : ℤ :=
  q.num.tdiv (q.den : ℤ)

/-- Exact executable carrier used to run the transform on concrete inputs.
The trigonometric fields are placeholders (every theorem about trigonometric
values is stated over `ℝ` or generically in the carrier); `fmod` is the exact
truncated remainder, which agrees with `f64`'s `%` on exactly represented
values. -/
instance : RealLike ℚ where
  cos := fun _ => 1
  sin := fun _ => 0
  pi := 0
  fmod := fun x y => x - y * ((ratTrunc (x / y) : ℤ) : ℚ)

/-- Truncation toward zero on `ℝ`, the semantics of `f64::trunc`. -/
noncomputable def realTrunc (x : ℝ) : ℝ :=
  if 0 ≤ x then ((⌊x⌋ : ℤ) : ℝ) else ((⌈x⌉ : ℤ) : ℝ)

/-- The faithful carrier: real numbers with the genuine transcendental
functions, modelling exact (roundoff-free) `f64` computation. -/
noncomputable instance : RealLike ℝ where
  cos := Real.cos
  sin := Real.sin
  pi := Real.pi
  fmod := fun x y => x - y * realTrunc (x / y)

/-- The `Complex` struct of `src/numbers/complex.rs`: an immutable pair
`(re, im)` of scalars.  Named `Cpx` because `Complex` is Mathlib's ℂ. -/
structure Cpx (α : Type) where
  re : α
  im : α
deriving DecidableEq, Repr

/-- `Complex::new(re, im)`. -/
def Cpx.new {α : Type} (re im : α) : Cpx α :=
  ⟨re, im⟩

/-- `Complex::i()`: the constant `(0, 1)`. -/
def Cpx.i {α : Type} [RealLike α] : Cpx α :=
  Cpx.new 0 1

/-- `impl Add for Complex`: component-wise addition. -/
def Cpx.add {α : Type} [RealLike α] (a b : Cpx α) : Cpx α :=
  Cpx.new (a.re + b.re) (a.im + b.im)

/-- `impl Sub for Complex`: component-wise subtraction. -/
def Cpx.sub {α : Type} [RealLike α] (a b : Cpx α) : Cpx α :=
  Cpx.new (a.re - b.re) (a.im - b.im)

/-- `impl Mul for Complex`.  The source computes
`re = self.re.mul_add(rhs.re, -(self.im * rhs.im))` and
`im = self.re.mul_add(rhs.im, self.im * rhs.re)`; in exact arithmetic
`x.mul_add(y, z) = x * y + z`, so the fused form is written out as such. -/
def Cpx.mul {α : Type} [RealLike α] (a b : Cpx α) : Cpx α :=
  Cpx.new (a.re * b.re + -(a.im * b.im)) (a.re * b.im + a.im * b.re)

/-- `impl Div<f64> for Complex`: component-wise division by a scalar. -/
def Cpx.div {α : Type} [RealLike α] (a : Cpx α) (rhs : α) : Cpx α :=
  Cpx.new (a.re / rhs) (a.im / rhs)

/-- `impl Rem<f64> for Complex`: component-wise `%` by a scalar. -/
def Cpx.rem {α : Type} [RealLike α] (a : Cpx α) (rhs : α) : Cpx α :=
  Cpx.new (RealLike.fmod a.re rhs) (RealLike.fmod a.im rhs)

/-- `Complex::from_polar(r, theta) = (r cos theta, r sin theta)`. -/
def Cpx.from_polar {α : Type} [RealLike α] (r theta : α) : Cpx α :=
  Cpx.new (r * RealLike.cos theta) (r * RealLike.sin theta)

/-- The `FFT` struct of `src/lib.rs`: the twiddle-factor cache and the size it
currently matches. -/
structure FFT (α : Type) where
  twiddle_cache : List (Cpx α)
  current_size : ℕ
deriving DecidableEq, Repr

/-- `FFT::new()`: empty cache, `current_size = 0` (also the `Default`). -/
def FFT.new {α : Type} : FFT α :=
  ⟨[], 0⟩

/-- The cache-generation loop of `compute_twiddle_factors`: push the running
`factor`, then `factor *= step`, `n` times. -/
def twiddleList {α : Type} [RealLike α] (step : Cpx α) : ℕ → Cpx α → List (Cpx α)
  | 0, _ => []
  | n + 1, factor => factor :: twiddleList step n (factor.mul step)

/-- `FFT::compute_twiddle_factors`.  No-op when `size == current_size`;
otherwise the cache is rebuilt from scratch: `base_angle = -2.0 * PI / size`,
`step = Complex::from_polar(1.0, base_angle)`, and `size` factors are produced
by iterated multiplication starting from `(1, 0)`. -/
def FFT.compute_twiddle_factors {α : Type} [RealLike α] (st : FFT α) (size : ℕ) : FFT α :=
  if size = st.current_size then st
  else
    let base_angle : α := -2 * RealLike.pi / (size : α)
    let step := Cpx.from_polar 1 base_angle
    { twiddle_cache := twiddleList step size (Cpx.new 1 0), current_size := size }

/-- Fuelled base-2 floor logarithm (`log2Fuel n n` never exhausts its fuel). -/
def log2Fuel : ℕ → ℕ → ℕ
  | 0, _ => 0
  | fuel + 1, n => if 2 ≤ n then log2Fuel fuel (n / 2) + 1 else 0

/-- Model of `(n as f64).log2() as u32`.  On every power of two the float
computation is exact, and those are the only lengths the permutation is
reached with (`debug_assert!(n.is_power_of_two())`). -/
def floorLog2 (n : ℕ) : ℕ :=
  log2Fuel n n

/-- The bit-reversal inner loop of `bit_reverse_permutation`:
`bits` iterations of `rev = (rev << 1) | (j & 1); j >>= 1`. -/
def revBits : ℕ → ℕ → ℕ → ℕ
  | 0, rev, _ => rev
  | bits + 1, rev, j => revBits bits ((rev <<< 1) ||| (j &&& 1)) (j >>> 1)

/-- `Vec::swap(i, j)`: panics (here `none`) when an index is out of bounds. -/
def swapChecked {β : Type} (l : List β) (i j : ℕ) : Option (List β) := do
  let a ← l[i]?
  let b ← l[j]?
  pure ((l.set i b).set j a)

/-- One iteration of the `bit_reverse_permutation` loop body at index `i`. -/
def bitRevStep {β : Type} (bits : ℕ) (data : List β) (i : ℕ) : Option (List β) :=
  let rev := revBits bits 0 i
  if rev > i then swapChecked data i rev else pure data

/-- `FFT::bit_reverse_permutation`: for `i` in `1..n-1`, swap `data[i]` with
`data[rev(i)]` when `rev(i) > i`. -/
def bit_reverse_permutation {β : Type} (data : List β) : Option (List β) :=
  let n := data.length
  let bits := floorLog2 n
  (List.range' 1 (n - 1 - 1)).foldlM (bitRevStep bits) data

/-- `data[i] = v`: panics (here `none`) when out of bounds. -/
def setChecked {β : Type} (l : List β) (i : ℕ) (v : β) : Option (List β) :=
  if i < l.length then some (l.set i v) else none

/-- The butterfly body of `fft_inplace` at block start `i`, offset `j`:
`twiddle = cache[j*step]`, `even = data[i+j]`, `odd = data[i+j+half] * twiddle`,
`data[i+j] = even + odd`, `data[i+j+half] = even - odd`. -/
def butterfly {α : Type} [RealLike α] (cache : List (Cpx α)) (half step i : ℕ)
    (data : List (Cpx α)) (j : ℕ) : Option (List (Cpx α)) := do
  let twiddle ← cache[j * step]?
  let even ← data[i + j]?
  let odd0 ← data[i + j + half]?
  let odd := odd0.mul twiddle
  let d1 ← setChecked data (i + j) (even.add odd)
  setChecked d1 (i + j + half) (even.sub odd)

/-- The `for j in 0..half` loop of one butterfly block. -/
def innerLoop {α : Type} [RealLike α] (cache : List (Cpx α)) (half step i : ℕ)
    (data : List (Cpx α)) : Option (List (Cpx α)) :=
  (List.range half).foldlM (butterfly cache half step i) data

/-- The `for i in (0..n).step_by(size)` loop of one stage: block starts
`0, size, 2*size, …` below `n` (count `⌈n / size⌉`). -/
def blockLoop {α : Type} [RealLike α] (cache : List (Cpx α)) (n size step : ℕ)
    (data : List (Cpx α)) : Option (List (Cpx α)) :=
  (List.range' 0 ((n + size - 1) / size) size).foldlM
    (fun d i => innerLoop cache (size / 2) step i d) data

/-- The `while size <= n` stage loop of `fft_inplace`, with explicit fuel.
Fuel exhaustion with the guard still true yields `none`; `fft_inplace` passes
fuel `n`, which is proved sufficient below. -/
def stageLoop {α : Type} [RealLike α] (cache : List (Cpx α)) (n : ℕ) :
    ℕ → ℕ → ℕ → List (Cpx α) → Option (List (Cpx α))
  | 0, size, _, data => if size ≤ n then none else some data
  | fuel + 1, size, step, data =>
    if size ≤ n then
      match blockLoop cache n size step data with
      | none => none
      | some d => stageLoop cache n fuel (size * 2) (step / 2) d
    else some data

/-- `FFT::fft_inplace`: recompute the cache when the buffer length differs
from `current_size`, apply the bit-reversal permutation, then run the
butterfly stages starting from `size = 2`, `step = n / 2`. -/
def FFT.fft_inplace {α : Type} [RealLike α] (st : FFT α) (data : List (Cpx α)) :
    Option (FFT α × List (Cpx α)) :=
  let n := data.length
  let st' := if n ≠ st.current_size then st.compute_twiddle_factors n else st
  do
    let d1 ← bit_reverse_permutation data
    let d2 ← stageLoop st'.twiddle_cache n n 2 (n / 2) d1
    pure (st', d2)

/-- Fuelled loop of `usize::next_power_of_two`: keep doubling `power` while it
is below `n` (fuel `n` is proved sufficient). -/
def nptGo (n : ℕ) : ℕ → ℕ → ℕ
  | 0, power => power
  | fuel + 1, power => if power < n then nptGo n fuel (power * 2) else power

/-- Model of `usize::next_power_of_two`: the smallest power of two `≥ n`
(`0` and `1` both map to `1`; the `usize` overflow case is unreachable for
buffer lengths). -/
def next_power_of_two (n : ℕ) : ℕ :=
  nptGo n n 1

/-- `FFT::transform`: pad the signal with zeros to the next power of two and
run the in-place transform.  `Vec::resize` never truncates here because
`next_power_of_two n ≥ n`. -/
def FFT.transform {α : Type} [RealLike α] (st : FFT α) (signal : List (Cpx α)) :
    Option (FFT α × List (Cpx α)) :=
  let n := next_power_of_two signal.length
  let padded := signal ++ List.replicate (n - signal.length) (Cpx.new 0 0)
  st.fft_inplace padded

/-- `FFT::transform_real`: lift each real sample `x` to `(x, 0)`, pad with
zeros to the next power of two, and run the in-place transform. -/
def FFT.transform_real {α : Type} [RealLike α] (st : FFT α) (signal : List α) :
    Option (FFT α × List (Cpx α)) :=
  let n := next_power_of_two signal.length
  let data := signal.map (fun x => Cpx.new x 0) ++ List.replicate (n - signal.length) (Cpx.new 0 0)
  st.fft_inplace data

/-- Engine states reachable through the public interface (`new`, explicit
cache warm-up, and the two transform entry points when they succeed). -/
inductive Reachable {α : Type} [RealLike α] : FFT α → Prop
  | new : Reachable FFT.new
  | compute {st : FFT α} (n : ℕ) : Reachable st → Reachable (st.compute_twiddle_factors n)
  | transform {st st' : FFT α} {sig : List (Cpx α)} {out : List (Cpx α)} :
      Reachable st → st.transform sig = some (st', out) → Reachable st'
  | transform_real {st st' : FFT α} {sig : List α} {out : List (Cpx α)} :
      Reachable st → st.transform_real sig = some (st', out) → Reachable st'

/-- The cache `compute_twiddle_factors n` produces (for `n ≠ current_size`):
`n` iterated powers of `e^{-2πi/n}` starting from `1`. -/
def cacheFor (α : Type) [RealLike α] (n : ℕ) : List (Cpx α) :=
  twiddleList (Cpx.from_polar 1 (-2 * RealLike.pi / (n : α))) n (Cpx.new 1 0)

/-- Cache well-formedness: the cache length matches `current_size`. -/
def cacheWF {α : Type} (st : FFT α) : Prop :=
  st.twiddle_cache.length = st.current_size

/-- Strong engine invariant: the cache is exactly the one
`compute_twiddle_factors` builds for `current_size`. -/
def cacheExact {α : Type} [RealLike α] (st : FFT α) : Prop :=
  st.twiddle_cache = cacheFor α st.current_size

/-- Embedding of `Cpx ℝ` into Mathlib's ℂ, to state the twiddle-factor
invariant against the mathematical `e^{-2πik/n}`. -/
noncomputable def toC (z : Cpx ℝ) : ℂ :=
  (z.re : ℂ) + (z.im : ℂ) * Complex.I

/-- Spec-side wording of the cache generation: "starting from `factor = (1,0)`
and repeatedly multiplying by the fixed step"; `iterFactor step k` is the
`k`-fold iterated product. -/
def iterFactor {α : Type} [RealLike α] (step : Cpx α) : ℕ → Cpx α
  | 0 => Cpx.new 1 0
  | k + 1 => (iterFactor step k).mul step

/-- Spec-side bit reversal: the integer formed by reversing the low `b` bits
of `j` (the low bit of `j` becomes the top of the result). -/
def bitRev : ℕ → ℕ → ℕ
  | 0, _ => 0
  | b + 1, j => j % 2 * 2 ^ b + bitRev b (j / 2)

/-- Spec-side bit-reversal permutation: the buffer whose entry `idx` holds the
original `data[rev(idx)]`. -/
def spec_bit_reversal {α : Type} [RealLike α] (bits : ℕ) (data : List (Cpx α)) : List (Cpx α) :=
  (List.range data.length).map (fun idx => data.getD (bitRev bits idx) (Cpx.new 0 0))

/-- Spec-side butterfly: `even = data[i+j]`,
`odd = data[i+j+size/2] * twiddle_cache[j*step]`, `data[i+j] = even+odd`,
`data[i+j+size/2] = even-odd`. -/
def spec_butterfly {α : Type} [RealLike α] (cache : List (Cpx α)) (half step i j : ℕ)
    (d : List (Cpx α)) : List (Cpx α) :=
  let even := d.getD (i + j) (Cpx.new 0 0)
  let odd := (d.getD (i + j + half) (Cpx.new 0 0)).mul (cache.getD (j * step) (Cpx.new 0 0))
  (d.set (i + j) (even.add odd)).set (i + j + half) (even.sub odd)

/-- Spec-side stage of size `size`: twiddle stride `n / size`, block starts
stepping by `size` across `[0, n)`, offsets `j` in `[0, size/2)`. -/
def spec_stage {α : Type} [RealLike α] (cache : List (Cpx α)) (n size : ℕ)
    (d : List (Cpx α)) : List (Cpx α) :=
  (List.range' 0 (n / size) size).foldl
    (fun dd i => (List.range (size / 2)).foldl
      (fun ddd j => spec_butterfly cache (size / 2) (n / size) i j ddd) dd) d

/-- Spec-side stage iteration: sizes `2, 4, …, 2^bits`. -/
def spec_stages {α : Type} [RealLike α] (cache : List (Cpx α)) (n bits : ℕ)
    (d : List (Cpx α)) : List (Cpx α) :=
  (List.range bits).foldl (fun dd s => spec_stage cache n (2 ^ (s + 1)) dd) d

/-- The reference in-place transform described by the spec: ensure the cache
matches `n`, apply the bit-reversal permutation, then run the stages. -/
def spec_fft_inplace {α : Type} [RealLike α] (st : FFT α) (data : List (Cpx α)) :
    FFT α × List (Cpx α) :=
  let n := data.length
  let bits := floorLog2 n
  let st' := st.compute_twiddle_factors n
  (st', spec_stages st'.twiddle_cache n bits (spec_bit_reversal bits data))

/-! ### Basic lemmas about the embedded definitions -/

theorem twiddleList_length {α : Type} [RealLike α] (step : Cpx α) :
    ∀ (n : ℕ) (f : Cpx α), (twiddleList step n f).length = n := by
  intro n
  induction n with
  | zero => intro f; rfl
  | succ n ih => intro f; simp [twiddleList, ih]

theorem twiddleList_eq_map {α : Type} [RealLike α] (step : Cpx α) :
    ∀ (n m : ℕ), twiddleList step n (iterFactor step m) =
      (List.range' m n).map (iterFactor step) := by
  intro n
  induction n with
  | zero => intro m; rfl
  | succ n ih =>
    intro m
    have hstep : (iterFactor step m).mul step = iterFactor step (m + 1) := rfl
    simp only [twiddleList, hstep, ih (m + 1), List.range'_succ, List.map_cons]

theorem cacheFor_eq_map (α : Type) [RealLike α] (n : ℕ) :
    cacheFor α n =
      (List.range n).map (iterFactor (Cpx.from_polar 1 (-2 * RealLike.pi / (n : α)))) := by
  have h0 : (Cpx.new 1 0 : Cpx α) = iterFactor (Cpx.from_polar 1 (-2 * RealLike.pi / (n : α))) 0 := rfl
  rw [cacheFor, h0, twiddleList_eq_map, List.range_eq_range']

theorem cacheFor_length (α : Type) [RealLike α] (n : ℕ) :
    (cacheFor α n).length = n := by
  rw [cacheFor, twiddleList_length]

theorem compute_twiddle_factors_of_ne {α : Type} [RealLike α] (st : FFT α) (size : ℕ)
    (h : size ≠ st.current_size) :
    st.compute_twiddle_factors size = ⟨cacheFor α size, size⟩ := by
  rw [FFT.compute_twiddle_factors, if_neg h]
  rfl

theorem compute_twiddle_factors_of_eq {α : Type} [RealLike α] (st : FFT α) (size : ℕ)
    (h : size = st.current_size) :
    st.compute_twiddle_factors size = st := by
  rw [FFT.compute_twiddle_factors, if_pos h]

theorem compute_twiddle_factors_cacheExact {α : Type} [RealLike α] (st : FFT α) (size : ℕ)
    (h : cacheExact st) : cacheExact (st.compute_twiddle_factors size) := by
  by_cases hs : size = st.current_size
  · rw [compute_twiddle_factors_of_eq st size hs]; exact h
  · rw [compute_twiddle_factors_of_ne st size hs]; rfl

theorem cacheExact_cacheWF {α : Type} [RealLike α] (st : FFT α)
    (h : cacheExact st) : cacheWF st := by
  rw [cacheWF, h, cacheFor_length]

/-! ### Properties of `next_power_of_two` -/

theorem nptGo_spec (n : ℕ) : ∀ (fuel power : ℕ), power.isPowerOfTwo → n ≤ power * 2 ^ fuel →
    n ≤ nptGo n fuel power ∧ (nptGo n fuel power).isPowerOfTwo ∧
      ∀ m, m.isPowerOfTwo → n ≤ m → power ≤ m → nptGo n fuel power ≤ m := by
  intro fuel
  induction fuel with
  | zero =>
    intro power hpow hle
    simp only [nptGo]
    exact ⟨by simpa using hle, hpow, fun m _ _ hm => hm⟩
  | succ fuel ih =>
    intro power hpow hle
    simp only [nptGo]
    by_cases hlt : power < n
    · rw [if_pos hlt]
      have hpow2 : (power * 2).isPowerOfTwo := by
        obtain ⟨k, hk⟩ := hpow
        exact ⟨k + 1, by rw [hk, pow_succ]⟩
      have hle2 : n ≤ power * 2 * 2 ^ fuel := by
        rw [mul_assoc, ← pow_succ']
        exact hle
      obtain ⟨h1, h2, h3⟩ := ih (power * 2) hpow2 hle2
      refine ⟨h1, h2, fun m hm hnm hpm => h3 m hm hnm ?_⟩
      obtain ⟨a, ha⟩ := hpow
      obtain ⟨b, hb⟩ := hm
      have hab : a < b := by
        rw [← Nat.pow_lt_pow_iff_right (a := 2) one_lt_two, ← ha, ← hb]
        exact lt_of_lt_of_le hlt hnm
      calc power * 2 = 2 ^ (a + 1) := by rw [ha, pow_succ]
        _ ≤ 2 ^ b := Nat.pow_le_pow_right (by norm_num) hab
        _ = m := hb.symm
    · rw [if_neg hlt]
      exact ⟨Nat.le_of_not_lt hlt, hpow, fun m _ _ hm => hm⟩

theorem next_power_of_two_spec (n : ℕ) :
    n ≤ next_power_of_two n ∧ (next_power_of_two n).isPowerOfTwo ∧
      ∀ m, m.isPowerOfTwo → n ≤ m → next_power_of_two n ≤ m := by
  have h := nptGo_spec n n 1 ⟨0, rfl⟩ (by simpa using Nat.le_of_lt (Nat.lt_two_pow n))
  refine ⟨h.1, h.2.1, fun m hm hnm => h.2.2 m hm hnm ?_⟩
  obtain ⟨k, hk⟩ := hm
  rw [hk]
  exact Nat.one_le_two_pow

theorem next_power_of_two_eq_iff (n : ℕ) :
    next_power_of_two n = n ↔ n.isPowerOfTwo := by
  obtain ⟨h1, h2, h3⟩ := next_power_of_two_spec n
  constructor
  · intro h; rw [← h]; exact h2
  · intro h; exact Nat.le_antisymm (h3 n h le_rfl) h1

theorem next_power_of_two_zero : next_power_of_two 0 = 1 := rfl

/-! ### Base-2 logarithm lemmas -/

theorem log2Fuel_one : ∀ fuel, log2Fuel fuel 1 = 0 := by
  intro fuel
  cases fuel with
  | zero => rfl
  | succ fuel => simp [log2Fuel]

theorem log2Fuel_pow : ∀ (b fuel : ℕ), b ≤ fuel → log2Fuel fuel (2 ^ b) = b := by
  intro b
  induction b with
  | zero => intro fuel _; exact log2Fuel_one fuel
  | succ b ih =>
    intro fuel hb
    obtain ⟨fuel, rfl⟩ : ∃ f, fuel = f + 1 := ⟨fuel - 1, by omega⟩
    have h2 : 2 ≤ 2 ^ (b + 1) := by
      calc 2 = 2 ^ 1 := rfl
        _ ≤ 2 ^ (b + 1) := Nat.pow_le_pow_right (by norm_num) (by omega)
    have hdiv : 2 ^ (b + 1) / 2 = 2 ^ b := by
      rw [pow_succ, Nat.mul_div_cancel _ (by norm_num)]
    simp only [log2Fuel, if_pos h2, hdiv, ih fuel (by omega)]

theorem floorLog2_pow (b : ℕ) : floorLog2 (2 ^ b) = b :=
  log2Fuel_pow b (2 ^ b) (Nat.le_of_lt (Nat.lt_two_pow b))

/-! ### Shape of `fft_inplace` and the reachability invariant -/

theorem fft_inplace_shape {α : Type} [RealLike α] (st : FFT α) (data : List (Cpx α)) :
    st.fft_inplace data =
      (bit_reverse_permutation data).bind (fun d1 =>
        (stageLoop (if data.length ≠ st.current_size then
            st.compute_twiddle_factors data.length else st).twiddle_cache
            data.length data.length 2 (data.length / 2) d1).bind (fun d2 =>
          some ((if data.length ≠ st.current_size then
            st.compute_twiddle_factors data.length else st), d2))) := rfl

theorem fft_inplace_state {α : Type} [RealLike α] (st : FFT α) (data : List (Cpx α))
    (p : FFT α × List (Cpx α)) (h : st.fft_inplace data = some p) :
    p.1 = if data.length ≠ st.current_size then st.compute_twiddle_factors data.length else st := by
  rw [fft_inplace_shape] at h
  rcases hb : bit_reverse_permutation data with _ | d1 <;> rw [hb] at h
  · rw [Option.none_bind] at h; exact absurd h (by simp)
  · rw [Option.some_bind] at h
    rcases hs : stageLoop (if data.length ≠ st.current_size then
        st.compute_twiddle_factors data.length else st).twiddle_cache
        data.length data.length 2 (data.length / 2) d1 with _ | d2 <;> rw [hs] at h
    · rw [Option.none_bind] at h; exact absurd h (by simp)
    · rw [Option.some_bind, Option.some_inj] at h
      rw [← h]

theorem cacheExact_new {α : Type} [RealLike α] : cacheExact (FFT.new : FFT α) := rfl

theorem cacheExact_ensure {α : Type} [RealLike α] (st : FFT α) (n : ℕ) (h : cacheExact st) :
    cacheExact (if n ≠ st.current_size then st.compute_twiddle_factors n else st) := by
  by_cases hn : n ≠ st.current_size
  · rw [if_pos hn]; exact compute_twiddle_factors_cacheExact st n h
  · rw [if_neg hn]; exact h

theorem reachable_cacheExact {α : Type} [RealLike α] (st : FFT α)
    (h : Reachable st) : cacheExact st := by
  induction h with
  | new => exact cacheExact_new
  | compute n _ ih => exact compute_twiddle_factors_cacheExact _ n ih
  | transform _ heq ih =>
    rename_i st0 st' sig out _
    have := fft_inplace_state st0 _ (st', out) heq
    simp only at this
    rw [this]
    exact cacheExact_ensure st0 _ ih
  | transform_real _ heq ih =>
    rename_i st0 st' sig out _
    have := fft_inplace_state st0 _ (st', out) heq
    simp only at this
    rw [this]
    exact cacheExact_ensure st0 _ ih

/-! ### Claims C5, C6, C7, C9, C10 -/

/-- Claim C5: for every `size` different from `current_size`,
`compute_twiddle_factors` discards the old cache and regenerates exactly
`size` entries, entry `k` being the `k`-fold iterated product of the fixed
step `from_polar(1, -2π/size)` starting from `(1, 0)`, and sets
`current_size = size`. -/
theorem compute_twiddle_factors_rebuild {α : Type} [RealLike α] (st : FFT α) (size : ℕ)
    (h : size ≠ st.current_size) :
    st.compute_twiddle_factors size =
      { twiddle_cache := (List.range size).map
          (iterFactor (Cpx.from_polar 1 (-2 * RealLike.pi / (size : α)))),
        current_size := size } := by
  rw [compute_twiddle_factors_of_ne st size h, ← cacheFor_eq_map]

theorem compute_twiddle_factors_rebuild_witness :
    2 ≠ (FFT.new : FFT ℚ).current_size ∧
      (FFT.new : FFT ℚ).compute_twiddle_factors 2 =
        { twiddle_cache := (List.range 2).map
            (iterFactor (Cpx.from_polar 1 (-2 * RealLike.pi / (2 : ℚ)))),
          current_size := 2 } :=
  ⟨by decide, compute_twiddle_factors_rebuild FFT.new 2 (by decide)⟩

/-- Claim C6: `transform_real` returns exactly what `transform` returns on the
sample-wise lift `x ↦ (x, 0)` of the signal, from the same engine state and
with the same resulting engine state. -/
theorem transform_real_eq_transform_lift {α : Type} [RealLike α] (st : FFT α) (signal : List α) :
    st.transform_real signal = st.transform (signal.map (fun x => Cpx.new x 0)) := by
  simp only [FFT.transform_real, FFT.transform, List.length_map]

/-- Claim C7: `compute_twiddle_factors` is a no-op when `current_size` already
equals `size`; two consecutive calls with the same `n` equal one call, and a
subsequent `transform` from the doubly-warmed state is identical. -/
theorem compute_twiddle_factors_idempotent {α : Type} [RealLike α] (st : FFT α) (size n : ℕ)
    (sig : List (Cpx α)) :
    (st.current_size = size → st.compute_twiddle_factors size = st) ∧
    (st.compute_twiddle_factors n).compute_twiddle_factors n = st.compute_twiddle_factors n ∧
    ((st.compute_twiddle_factors n).compute_twiddle_factors n).transform sig
      = (st.compute_twiddle_factors n).transform sig := by
  have h2 : (st.compute_twiddle_factors n).compute_twiddle_factors n
      = st.compute_twiddle_factors n := by
    apply compute_twiddle_factors_of_eq
    by_cases hn : n = st.current_size
    · rw [compute_twiddle_factors_of_eq st n hn]; exact hn
    · rw [compute_twiddle_factors_of_ne st n hn]
  exact ⟨fun h => compute_twiddle_factors_of_eq st size h.symm, h2, by rw [h2]⟩

theorem compute_twiddle_factors_idempotent_witness :
    (FFT.new : FFT ℚ).compute_twiddle_factors 0 = FFT.new ∧
    ((FFT.new : FFT ℚ).compute_twiddle_factors 3).compute_twiddle_factors 3
      = FFT.new.compute_twiddle_factors 3 ∧
    (((FFT.new : FFT ℚ).compute_twiddle_factors 3).compute_twiddle_factors 3).transform
        [Cpx.new 1 0]
      = (FFT.new.compute_twiddle_factors 3).transform [Cpx.new 1 0] :=
  ⟨(compute_twiddle_factors_idempotent FFT.new 0 3 [Cpx.new 1 0]).1 rfl,
    (compute_twiddle_factors_idempotent FFT.new 0 3 [Cpx.new 1 0]).2.1,
    (compute_twiddle_factors_idempotent FFT.new 0 3 [Cpx.new 1 0]).2.2⟩

/-- Claim C9: the fixed complex values `a = (5,3)`, `b = (2,7)` satisfy
`a+b = (7,10)`, `a-b = (3,-4)`, `a*b = (-11,41)` under the fused-multiply-add
multiplication, `a/2 = (2.5, 1.5)`, and `a mod 2 = (1,1)`, exactly and
component-wise. -/
theorem complex_arithmetic_fixed_values :
    (Cpx.new (5 : ℝ) 3).add (Cpx.new 2 7) = Cpx.new 7 10 ∧
    (Cpx.new (5 : ℝ) 3).sub (Cpx.new 2 7) = Cpx.new 3 (-4) ∧
    (Cpx.new (5 : ℝ) 3).mul (Cpx.new 2 7) = Cpx.new (-11) 41 ∧
    (Cpx.new (5 : ℝ) 3).div 2 = Cpx.new 2.5 1.5 ∧
    (Cpx.new (5 : ℝ) 3).rem 2 = Cpx.new 1 1 := by
  have hfmod : ∀ x y : ℝ, RealLike.fmod x y = x - y * realTrunc (x / y) := fun _ _ => rfl
  have h1 : realTrunc ((5 : ℝ) / 2) = 2 := by
    rw [realTrunc.eq_1, if_pos (by norm_num)]; norm_num
  have h2 : realTrunc ((3 : ℝ) / 2) = 1 := by
    rw [realTrunc.eq_1, if_pos (by norm_num)]; norm_num
  refine ⟨?_, ?_, ?_, ?_, ?_⟩ <;>
    norm_num [Cpx.add, Cpx.sub, Cpx.mul, Cpx.div, Cpx.rem, Cpx.new, Cpx.mk.injEq, hfmod, h1, h2]

/-- Claim C10: on the empty input both transforms return the one-element
buffer `[(0,0)]`; the bit-reversal permutation and the butterfly stage loop
are identities on a length-1 buffer (no swap, no stage executes). -/
theorem transform_empty_singleton_zero {α : Type} [RealLike α] (st : FFT α) :
    ∃ st', st.transform [] = some (st', [Cpx.new 0 0]) ∧
      st.transform_real ([] : List α) = some (st', [Cpx.new 0 0]) ∧
      (∀ c : Cpx α, bit_reverse_permutation [c] = some [c]) ∧
      (∀ cache : List (Cpx α), ∀ d : List (Cpx α), stageLoop cache 1 1 2 0 d = some d) :=
  ⟨_, rfl, rfl, fun _ => rfl, fun _ _ => rfl⟩

/-! ### Bit-reversal arithmetic -/

theorem two_mul_lor (r m : ℕ) (hm : m < 2) : 2 * r ||| m = 2 * r + m := by
  interval_cases m
  · simp
  · apply Nat.eq_of_testBit_eq
    intro k
    cases k with
    | zero =>
      rw [Nat.testBit_or, Nat.testBit_zero, Nat.testBit_zero, Nat.testBit_zero]
      have ha : 2 * r % 2 = 0 := by omega
      have hb : (2 * r + 1) % 2 = 1 := by omega
      rw [ha, hb]
      simp
    | succ k =>
      rw [Nat.testBit_or, Nat.testBit_add_one, Nat.testBit_add_one, Nat.testBit_add_one]
      have ha : 2 * r / 2 = r := by omega
      have hb : (2 * r + 1) / 2 = r := by omega
      have hc : (1 : ℕ) / 2 = 0 := by norm_num
      rw [ha, hb, hc, Nat.zero_testBit, Bool.or_false]

theorem revBits_succ (b r j : ℕ) :
    revBits (b + 1) r j = revBits b (2 * r + j % 2) (j / 2) := by
  have h1 : r <<< 1 = 2 * r := by rw [Nat.shiftLeft_eq]; ring
  have h2 : j &&& 1 = j % 2 := Nat.and_one_is_mod j
  have h3 : j >>> 1 = j / 2 := by rw [Nat.shiftRight_eq_div_pow]
  show revBits b ((r <<< 1) ||| (j &&& 1)) (j >>> 1) = _
  rw [h1, h2, h3, two_mul_lor r (j % 2) (Nat.mod_lt j (by norm_num))]

theorem revBits_acc : ∀ (b r j : ℕ), revBits b r j = r * 2 ^ b + revBits b 0 j := by
  intro b
  induction b with
  | zero => intro r j; simp [revBits]
  | succ b ih =>
    intro r j
    rw [revBits_succ b r j, revBits_succ b 0 j]
    simp only [Nat.mul_zero, Nat.zero_add]
    rw [ih (2 * r + j % 2) (j / 2), ih (j % 2) (j / 2)]
    ring

theorem revBits_eq_bitRev : ∀ (b j : ℕ), revBits b 0 j = bitRev b j := by
  intro b
  induction b with
  | zero => intro j; rfl
  | succ b ih =>
    intro j
    rw [revBits_succ b 0 j]
    simp only [Nat.mul_zero, Nat.zero_add]
    rw [revBits_acc b (j % 2) (j / 2), ih (j / 2)]
    rfl

theorem bitRev_lt : ∀ (b j : ℕ), bitRev b j < 2 ^ b := by
  intro b
  induction b with
  | zero => intro j; simp [bitRev]
  | succ b ih =>
    intro j
    have h := ih (j / 2)
    have hm : j % 2 ≤ 1 := by omega
    have hle : j % 2 * 2 ^ b ≤ 2 ^ b := by
      calc j % 2 * 2 ^ b ≤ 1 * 2 ^ b := Nat.mul_le_mul_right _ hm
        _ = 2 ^ b := one_mul _
    show j % 2 * 2 ^ b + bitRev b (j / 2) < 2 ^ (b + 1)
    rw [pow_succ]
    omega

theorem bitRev_hi : ∀ (b j : ℕ), j < 2 ^ (b + 1) →
    bitRev (b + 1) j = 2 * bitRev b (j % 2 ^ b) + j / 2 ^ b := by
  intro b
  induction b with
  | zero =>
    intro j hj
    show j % 2 * 2 ^ 0 + bitRev 0 (j / 2) = 2 * bitRev 0 (j % 2 ^ 0) + j / 2 ^ 0
    simp only [bitRev, pow_zero]
    omega
  | succ b ih =>
    intro j hj
    show j % 2 * 2 ^ (b + 1) + bitRev (b + 1) (j / 2)
        = 2 * bitRev (b + 1) (j % 2 ^ (b + 1 + 1 - 1)) + j / 2 ^ (b + 1)
    rw [ih (j / 2) (by rw [pow_succ] at hj; omega)]
    show j % 2 * 2 ^ (b + 1) + (2 * bitRev b (j / 2 % 2 ^ b) + j / 2 / 2 ^ b)
        = 2 * (j % 2 ^ (b + 1) % 2 * 2 ^ b + bitRev b (j % 2 ^ (b + 1) / 2)) + j / 2 ^ (b + 1)
    have e1 : j % 2 ^ (b + 1) % 2 = j % 2 := by
      apply Nat.mod_mod_of_dvd
      exact ⟨2 ^ b, by rw [pow_succ]; ring⟩
    have e2 : j % 2 ^ (b + 1) / 2 = j / 2 % 2 ^ b := by
      rw [show (2 : ℕ) ^ (b + 1) = 2 * 2 ^ b by rw [pow_succ]; ring]
      exact Nat.mod_mul_right_div_self j 2 (2 ^ b)
    have e3 : j / 2 / 2 ^ b = j / 2 ^ (b + 1) := by
      rw [Nat.div_div_eq_div_mul, show (2 : ℕ) * 2 ^ b = 2 ^ (b + 1) by rw [pow_succ]; ring]
    rw [e1, e2, e3]
    ring

theorem bitRev_invol : ∀ (b j : ℕ), j < 2 ^ b → bitRev b (bitRev b j) = j := by
  intro b
  induction b with
  | zero => intro j hj; interval_cases j; rfl
  | succ b ih =>
    intro j hj
    have hc : j / 2 ^ b < 2 := by
      rw [pow_succ] at hj
      exact Nat.div_lt_of_lt_mul hj
    rw [bitRev_hi b j hj]
    show (2 * bitRev b (j % 2 ^ b) + j / 2 ^ b) % 2 * 2 ^ b
        + bitRev b ((2 * bitRev b (j % 2 ^ b) + j / 2 ^ b) / 2) = j
    have egen1 : ∀ X c : ℕ, c < 2 → (2 * X + c) % 2 = c := by intro X c h; omega
    have egen2 : ∀ X c : ℕ, c < 2 → (2 * X + c) / 2 = X := by intro X c h; omega
    rw [egen1 _ _ hc, egen2 _ _ hc, ih (j % 2 ^ b) (Nat.mod_lt j (by positivity))]
    rw [Nat.mul_comm (j / 2 ^ b) (2 ^ b)]
    exact Nat.div_add_mod j (2 ^ b)

theorem bitRev_zero_eq : ∀ b, bitRev b 0 = 0 := by
  intro b
  induction b with
  | zero => rfl
  | succ b ih =>
    show 0 % 2 * 2 ^ b + bitRev b (0 / 2) = 0
    simpa using ih

theorem bitRev_ones : ∀ b, bitRev b (2 ^ b - 1) = 2 ^ b - 1 := by
  intro b
  induction b with
  | zero => rfl
  | succ b ih =>
    have h2 : (2 : ℕ) ^ (b + 1) = 2 * 2 ^ b := by rw [pow_succ]; ring
    have hp : 0 < (2 : ℕ) ^ b := by positivity
    show (2 ^ (b + 1) - 1) % 2 * 2 ^ b + bitRev b ((2 ^ (b + 1) - 1) / 2) = 2 ^ (b + 1) - 1
    have e1 : (2 ^ (b + 1) - 1) % 2 = 1 := by omega
    have e2 : (2 ^ (b + 1) - 1) / 2 = 2 ^ b - 1 := by omega
    rw [e1, e2, ih]
    omega

theorem testBit_add_high (m R b k : ℕ) (hk : k < b) :
    (m * 2 ^ b + R).testBit k = R.testBit k := by
  rw [Nat.testBit_to_div_mod, Nat.testBit_to_div_mod]
  have hbk : k + (b - k) = b := by omega
  have h1 : m * 2 ^ b + R = 2 ^ k * (m * 2 ^ (b - k)) + R := by
    rw [← Nat.mul_assoc, Nat.mul_comm (2 ^ k) m, Nat.mul_assoc, ← pow_add, hbk]
  rw [h1, Nat.mul_add_div (by positivity)]
  have hA : m * 2 ^ (b - k) = 2 * (m * 2 ^ (b - k - 1)) := by
    obtain ⟨t, ht⟩ : ∃ t, b - k = t + 1 := ⟨b - k - 1, by omega⟩
    rw [ht, show t + 1 - 1 = t from by omega, pow_succ]
    ring
  rw [hA]
  have : (2 * (m * 2 ^ (b - k - 1)) + R / 2 ^ k) % 2 = R / 2 ^ k % 2 := by omega
  rw [this]

theorem bitRev_testBit : ∀ (b j k : ℕ), k < b →
    (bitRev b j).testBit k = j.testBit (b - 1 - k) := by
  intro b
  induction b with
  | zero => intro j k hk; exact absurd hk (by omega)
  | succ b ih =>
    intro j k hk
    show (j % 2 * 2 ^ b + bitRev b (j / 2)).testBit k = j.testBit (b + 1 - 1 - k)
    rcases Nat.lt_or_ge k b with hkb | hkb
    · rw [testBit_add_high (j % 2) (bitRev b (j / 2)) b k hkb, ih (j / 2) k hkb]
      have h : b + 1 - 1 - k = (b - 1 - k) + 1 := by omega
      rw [h, Nat.testBit_add_one]
    · have hkb' : k = b := by omega
      subst hkb'
      rw [show j % 2 * 2 ^ k = 2 ^ k * (j % 2) by ring]
      rw [Nat.testBit_mul_two_pow_add_eq]
      rw [Nat.testBit_lt_two_pow (bitRev_lt k (j / 2))]
      have h0 : k + 1 - 1 - k = 0 := by omega
      rw [h0, Nat.testBit_zero]
      have hmm : j % 2 % 2 = j % 2 := by omega
      rw [hmm]
      simp

/-! ### Correctness of the bit-reversal permutation -/

theorem getElem?_set_set {β : Type} (l : List β) (i j : ℕ) (a b : β) (k : ℕ)
    (hi : i < l.length) (hj : j < l.length) :
    ((l.set i b).set j a)[k]? = if k = j then some a else if k = i then some b else l[k]? := by
  rw [List.getElem?_set, List.getElem?_set]
  simp only [List.length_set]
  by_cases h1 : j = k
  · rw [if_pos h1, if_pos hj, if_pos h1.symm]
  · have h1' : ¬k = j := fun h => h1 h.symm
    rw [if_neg h1, if_neg h1']
    by_cases h2 : i = k
    · rw [if_pos h2, if_pos hi, if_pos h2.symm]
    · have h2' : ¬k = i := fun h => h2 h.symm
      rw [if_neg h2, if_neg h2']

theorem bitrev_fold_inv {β : Type} (orig : List β) (bits : ℕ) (hn : orig.length = 2 ^ bits) :
    ∀ m, m ≤ orig.length - 2 →
      ∃ cur, (List.range' 1 m).foldlM (bitRevStep bits) orig = some cur ∧
        cur.length = orig.length ∧
        ∀ k, k < orig.length →
          cur[k]? = if bitRev bits k ≠ k ∧ min k (bitRev bits k) ≤ m
                    then orig[bitRev bits k]? else orig[k]? := by
  intro m
  induction m with
  | zero =>
    intro _
    refine ⟨orig, rfl, rfl, fun k hk => ?_⟩
    rw [if_neg]
    rintro ⟨hne, hmin⟩
    have hk2 : k < 2 ^ bits := hn ▸ hk
    rcases (by omega : k = 0 ∨ bitRev bits k = 0) with h0 | h0
    · subst h0; exact hne (bitRev_zero_eq bits)
    · have hinv := bitRev_invol bits k hk2
      rw [h0, bitRev_zero_eq bits] at hinv
      subst hinv
      exact hne (bitRev_zero_eq bits)
  | succ m ih =>
    intro hm
    obtain ⟨cur, hfold, hlen, hcond⟩ := ih (by omega)
    have hi_lt : m + 1 < orig.length := by omega
    have hi2 : m + 1 < 2 ^ bits := hn ▸ hi_lt
    have hinv_i := bitRev_invol bits (m + 1) hi2
    have hrange : List.range' 1 (m + 1) = List.range' 1 m ++ [m + 1] := by
      rw [List.range'_concat, show 1 + 1 * m = m + 1 from by omega]
    rw [hrange, List.foldlM_append, hfold]
    simp only [Option.bind_eq_bind, Option.some_bind, List.foldlM_cons, List.foldlM_nil,
      bind_pure]
    simp only [bitRevStep, revBits_eq_bitRev]
    by_cases hgt : bitRev bits (m + 1) > m + 1
    · rw [if_pos hgt]
      have hi : m + 1 < cur.length := by omega
      have hr2 : bitRev bits (m + 1) < 2 ^ bits := bitRev_lt bits (m + 1)
      have hr : bitRev bits (m + 1) < cur.length := by rw [hlen, hn]; exact hr2
      obtain ⟨a, ha⟩ : ∃ a, cur[m + 1]? = some a := by
        rw [List.getElem?_eq_getElem hi]; exact ⟨_, rfl⟩
      obtain ⟨b, hb⟩ : ∃ b, cur[bitRev bits (m + 1)]? = some b := by
        rw [List.getElem?_eq_getElem hr]; exact ⟨_, rfl⟩
      have ha' : some a = orig[m + 1]? := by
        rw [← ha, hcond (m + 1) hi_lt, if_neg]
        rintro ⟨h1, h2⟩
        omega
      have hb' : some b = orig[bitRev bits (m + 1)]? := by
        rw [← hb, hcond _ (by rw [hn]; exact hr2), if_neg]
        rintro ⟨h1, h2⟩
        rw [hinv_i] at h2
        omega
      refine ⟨(cur.set (m + 1) b).set (bitRev bits (m + 1)) a, ?_, by simp [hlen], ?_⟩
      · simp [swapChecked, ha, hb]
      · intro k hk
        rw [getElem?_set_set cur (m + 1) (bitRev bits (m + 1)) a b k hi hr]
        by_cases hk_r : k = bitRev bits (m + 1)
        · rw [if_pos hk_r]
          subst hk_r
          rw [if_pos ⟨by rw [hinv_i]; omega, by rw [hinv_i]; omega⟩, hinv_i]
          exact ha'
        · rw [if_neg hk_r]
          by_cases hk_i : k = m + 1
          · rw [if_pos hk_i]
            subst hk_i
            rw [if_pos ⟨by omega, by omega⟩]
            exact hb'
          · rw [if_neg hk_i, hcond k hk]
            have hk2 : k < 2 ^ bits := hn ▸ hk
            have hinv_k := bitRev_invol bits k hk2
            by_cases hc : bitRev bits k ≠ k ∧ min k (bitRev bits k) ≤ m
            · rw [if_pos hc, if_pos ⟨hc.1, by omega⟩]
            · rw [if_neg hc, if_neg ?_]
              rintro ⟨h1, h2⟩
              apply hc
              refine ⟨h1, ?_⟩
              rcases (by omega : min k (bitRev bits k) ≤ m ∨ min k (bitRev bits k) = m + 1)
                with h3 | h3
              · exact h3
              · exfalso
                rcases (by omega : k = m + 1 ∨ bitRev bits k = m + 1) with h4 | h4
                · exact hk_i h4
                · apply hk_r
                  rw [← hinv_k, h4]
    · rw [if_neg hgt]
      refine ⟨cur, rfl, hlen, fun k hk => ?_⟩
      rw [hcond k hk]
      have hk2 : k < 2 ^ bits := hn ▸ hk
      have hinv_k := bitRev_invol bits k hk2
      by_cases hc : bitRev bits k ≠ k ∧ min k (bitRev bits k) ≤ m
      · rw [if_pos hc, if_pos ⟨hc.1, by omega⟩]
      · rw [if_neg hc, if_neg ?_]
        rintro ⟨h1, h2⟩
        apply hc
        refine ⟨h1, ?_⟩
        rcases (by omega : min k (bitRev bits k) ≤ m ∨ min k (bitRev bits k) = m + 1)
          with h3 | h3
        · exact h3
        · exfalso
          rcases (by omega : k = m + 1 ∨ bitRev bits k = m + 1) with h4 | h4
          · subst h4
            omega
          · have hk_eq : bitRev bits (m + 1) = k := by rw [← h4, hinv_k]
            rw [h4] at h3
            omega

theorem bit_reverse_permutation_some {β : Type} (data : List β) (bits : ℕ)
    (hn : data.length = 2 ^ bits) :
    ∃ out, bit_reverse_permutation data = some out ∧ out.length = data.length ∧
      ∀ k, k < data.length → out[k]? = data[bitRev bits k]? := by
  obtain ⟨cur, hfold, hlen, hcond⟩ := bitrev_fold_inv data bits hn (data.length - 2) le_rfl
  refine ⟨cur, ?_, hlen, fun k hk => ?_⟩
  · show (List.range' 1 (data.length - 1 - 1)).foldlM (bitRevStep (floorLog2 data.length)) data
      = some cur
    rw [hn, floorLog2_pow, show (2 : ℕ) ^ bits - 1 - 1 = data.length - 2 from by omega]
    exact hfold
  · rw [hcond k hk]
    by_cases hfix : bitRev bits k = k
    · rw [if_neg (by rintro ⟨h1, _⟩; exact h1 hfix), hfix]
    · have hk2 : k < 2 ^ bits := hn ▸ hk
      have hr2 : bitRev bits k < 2 ^ bits := bitRev_lt bits k
      have hmin : min k (bitRev bits k) ≤ data.length - 2 := by rw [hn]; omega
      rw [if_pos ⟨hfix, hmin⟩]

theorem bit_reverse_eq_spec {α : Type} [RealLike α] (data : List (Cpx α)) (bits : ℕ)
    (hn : data.length = 2 ^ bits) :
    bit_reverse_permutation data = some (spec_bit_reversal bits data) := by
  obtain ⟨out, h1, h2, h3⟩ := bit_reverse_permutation_some data bits hn
  rw [h1]
  congr 1
  apply List.ext_getElem?
  intro k
  have hspec : spec_bit_reversal bits data
      = (List.range data.length).map (fun idx => data.getD (bitRev bits idx) (Cpx.new 0 0)) :=
    rfl
  rcases Nat.lt_or_ge k data.length with hk | hk
  · rw [h3 k hk, hspec, List.getElem?_map, List.getElem?_range hk]
    have hr : bitRev bits k < data.length := by rw [hn]; exact bitRev_lt bits k
    rw [List.getElem?_eq_getElem hr]
    simp only [Option.map_some']
    rw [List.getD_eq_getElem data (Cpx.new 0 0) hr]
  · have hlen_spec : (spec_bit_reversal bits data).length = data.length := by
      rw [hspec, List.length_map, List.length_range]
    rw [List.getElem?_eq_none (by omega : out.length ≤ k),
      List.getElem?_eq_none (by rw [hlen_spec]; omega : (spec_bit_reversal bits data).length ≤ k)]

/-- Claim C3: the permutation visits `i` in `[1, n-2]`, computes `rev(i)` by
reversing the low `log2 n` bits of `i` (characterised via `testBit`), swaps
only when `rev(i) > i`, leaves `0` and `n-1` fixed, and nets out to
`out[k] = data[rev(k)]` for every index `k`. -/
theorem bit_reverse_permutation_correct {β : Type} (data : List β) (bits : ℕ)
    (hn : data.length = 2 ^ bits) :
    ∃ out, bit_reverse_permutation data = some out ∧ out.length = data.length ∧
      (∀ k, k < data.length → out[k]? = data[revBits bits 0 k]?) ∧
      (∀ i k, k < bits → (revBits bits 0 i).testBit k = i.testBit (bits - 1 - k)) ∧
      revBits bits 0 0 = 0 ∧ revBits bits 0 (data.length - 1) = data.length - 1 := by
  obtain ⟨out, h1, h2, h3⟩ := bit_reverse_permutation_some data bits hn
  refine ⟨out, h1, h2, fun k hk => ?_, fun i k hk => ?_, ?_, ?_⟩
  · rw [revBits_eq_bitRev]; exact h3 k hk
  · rw [revBits_eq_bitRev]; exact bitRev_testBit bits i k hk
  · rw [revBits_eq_bitRev]; exact bitRev_zero_eq bits
  · rw [revBits_eq_bitRev, hn]; exact bitRev_ones bits

theorem bit_reverse_permutation_correct_witness :
    ([(10 : ℚ), 20, 30, 40].length = 2 ^ 2) ∧
    (∃ out, bit_reverse_permutation [(10 : ℚ), 20, 30, 40] = some out ∧
      out.length = [(10 : ℚ), 20, 30, 40].length ∧
      (∀ k, k < [(10 : ℚ), 20, 30, 40].length →
        out[k]? = [(10 : ℚ), 20, 30, 40][revBits 2 0 k]?) ∧
      (∀ i k, k < 2 → (revBits 2 0 i).testBit k = i.testBit (2 - 1 - k)) ∧
      revBits 2 0 0 = 0 ∧
      revBits 2 0 ([(10 : ℚ), 20, 30, 40].length - 1) = [(10 : ℚ), 20, 30, 40].length - 1) :=
  ⟨rfl, bit_reverse_permutation_correct [(10 : ℚ), 20, 30, 40] 2 rfl⟩

/-! ### Butterfly stages: the checked loops equal the reference procedure -/

theorem foldlM_eq_foldl {γ δ : Type} (f : δ → γ → Option δ) (g : δ → γ → δ)
    (inv : δ → Prop) :
    ∀ (l : List γ) (d : δ), inv d →
      (∀ d' x, inv d' → x ∈ l → f d' x = some (g d' x) ∧ inv (g d' x)) →
      l.foldlM f d = some (l.foldl g d) ∧ inv (l.foldl g d) := by
  intro l
  induction l with
  | nil => intro d hd _; exact ⟨rfl, hd⟩
  | cons x xs ih =>
    intro d hd hstep
    obtain ⟨hfx, hinvx⟩ := hstep d x hd (List.mem_cons_self x xs)
    rw [List.foldlM_cons, List.foldl_cons, hfx]
    simp only [Option.bind_eq_bind, Option.some_bind]
    exact ih (g d x) hinvx (fun d' y hd' hy => hstep d' y hd' (List.mem_cons_of_mem x hy))

theorem butterfly_eq_spec {α : Type} [RealLike α] (cache : List (Cpx α)) (half stepW i j : ℕ)
    (d : List (Cpx α)) (n : ℕ) (hd : d.length = n) (hcache : cache.length = n)
    (hij : i + j + half < n) (hjs : j * stepW < n) :
    butterfly cache half stepW i d j = some (spec_butterfly cache half stepW i j d) ∧
      (spec_butterfly cache half stepW i j d).length = n := by
  have h1 : i + j < d.length := by omega
  have h2 : i + j + half < d.length := by omega
  have h3 : j * stepW < cache.length := by omega
  have e1 : d.getD (i + j) (Cpx.new 0 0) = d[i + j] := List.getD_eq_getElem d _ h1
  have e2 : d.getD (i + j + half) (Cpx.new 0 0) = d[i + j + half] := List.getD_eq_getElem d _ h2
  have e3 : cache.getD (j * stepW) (Cpx.new 0 0) = cache[j * stepW] :=
    List.getD_eq_getElem cache _ h3
  constructor
  · simp only [butterfly, spec_butterfly]
    rw [List.getElem?_eq_getElem h3, List.getElem?_eq_getElem h1, List.getElem?_eq_getElem h2]
    simp only [Option.bind_eq_bind, Option.some_bind, setChecked]
    rw [if_pos h1]
    simp only [Option.some_bind, List.length_set]
    rw [if_pos h2, e1, e2, e3]
  · simp only [spec_butterfly, List.length_set]
    exact hd

theorem innerLoop_eq_spec {α : Type} [RealLike α] (cache : List (Cpx α))
    (half stepW i n : ℕ) (hcache : cache.length = n)
    (hbound : ∀ j, j < half → i + j + half < n ∧ j * stepW < n)
    (d : List (Cpx α)) (hd : d.length = n) :
    innerLoop cache half stepW i d
      = some ((List.range half).foldl (fun dd j => spec_butterfly cache half stepW i j dd) d) ∧
    ((List.range half).foldl (fun dd j => spec_butterfly cache half stepW i j dd) d).length
      = n := by
  have h := foldlM_eq_foldl (butterfly cache half stepW i)
    (fun dd j => spec_butterfly cache half stepW i j dd)
    (fun dd => dd.length = n) (List.range half) d hd ?_
  · exact h
  · intro d' j hd' hj
    rw [List.mem_range] at hj
    obtain ⟨hb1, hb2⟩ := hbound j hj
    exact butterfly_eq_spec cache half stepW i j d' n hd' hcache hb1 hb2

theorem blockLoop_eq_spec {α : Type} [RealLike α] (cache : List (Cpx α)) (n size : ℕ)
    (p P : ℕ) (hp : 0 < p) (hP : 0 < P) (hsize : size = 2 * p) (hn : n = 2 * p * P)
    (hcache : cache.length = n) (d : List (Cpx α)) (hd : d.length = n) :
    blockLoop cache n size (n / size) d = some (spec_stage cache n size d) ∧
      (spec_stage cache n size d).length = n := by
  have hdiv : n / size = P := by
    rw [hn, hsize]; exact Nat.mul_div_cancel_left P (by omega)
  have hceil : (n + size - 1) / size = P := by
    rw [hn, hsize, show 2 * p * P + 2 * p - 1 = 2 * p * P + (2 * p - 1) from by omega,
      Nat.mul_add_div (by omega), Nat.div_eq_of_lt (by omega)]
    omega
  have hhalf : size / 2 = p := by rw [hsize]; omega
  have hlist : List.range' 0 ((n + size - 1) / size) size = List.range' 0 (n / size) size := by
    rw [hceil, hdiv]
  have hbound : ∀ i, i ∈ List.range' 0 (n / size) size →
      ∀ j, j < size / 2 → i + j + size / 2 < n ∧ j * (n / size) < n := by
    intro i hi j hj
    rw [List.mem_range'] at hi
    obtain ⟨t, ht, rfl⟩ := hi
    rw [hdiv] at ht
    rw [hhalf] at hj
    have hblock : size * t + size ≤ n := by
      have h1 : size * (t + 1) ≤ size * P := Nat.mul_le_mul_left size (by omega)
      have h2 : size * P = n := by rw [hn, hsize]
      have h3 : size * (t + 1) = size * t + size := by ring
      omega
    constructor
    · rw [hhalf]
      have : 0 + size * t + j + p < size * t + size := by omega
      omega
    · rw [hdiv]
      have h5 : j * P < p * P := Nat.mul_lt_mul_of_pos_right hj hP
      have h6 : 2 * (p * P) = n := by rw [hn]; ring
      omega
  have h := foldlM_eq_foldl (fun dd i => innerLoop cache (size / 2) (n / size) i dd)
    (fun dd i => (List.range (size / 2)).foldl
      (fun ddd j => spec_butterfly cache (size / 2) (n / size) i j ddd) dd)
    (fun dd => dd.length = n) (List.range' 0 (n / size) size) d hd ?_
  · constructor
    · show (List.range' 0 ((n + size - 1) / size) size).foldlM
        (fun dd i => innerLoop cache (size / 2) (n / size) i dd) d
        = some (spec_stage cache n size d)
      rw [hlist]
      exact h.1
    · exact h.2
  · intro d' i hd' hi
    exact innerLoop_eq_spec cache (size / 2) (n / size) i n hcache (hbound i hi) d' hd'

theorem stageLoop_eq_spec {α : Type} [RealLike α] (cache : List (Cpx α)) (bits n : ℕ)
    (hn : n = 2 ^ bits) (hcache : cache.length = n) :
    ∀ (fuel s : ℕ) (d : List (Cpx α)), s ≤ bits → bits - s ≤ fuel → d.length = n →
      stageLoop cache n fuel (2 ^ (s + 1)) (n / 2 ^ (s + 1)) d
        = some ((List.range' s (bits - s)).foldl
            (fun dd s' => spec_stage cache n (2 ^ (s' + 1)) dd) d) ∧
      ((List.range' s (bits - s)).foldl
          (fun dd s' => spec_stage cache n (2 ^ (s' + 1)) dd) d).length = n := by
  intro fuel
  induction fuel with
  | zero =>
    intro s d hs hfuel hd
    have hsb : s = bits := by omega
    subst hsb
    have hgt : ¬(2 ^ (s + 1) ≤ n) := by
      rw [hn]
      exact Nat.not_le.mpr (Nat.pow_lt_pow_right one_lt_two (by omega))
    show (if 2 ^ (s + 1) ≤ n then none else some d) = _ ∧ _
    rw [if_neg hgt, Nat.sub_self, List.range'_zero, List.foldl_nil]
    exact ⟨rfl, hd⟩
  | succ fuel ih =>
    intro s d hs hfuel hd
    rcases Nat.lt_or_ge s bits with hsb | hsb
    · have hle : 2 ^ (s + 1) ≤ n := by
        rw [hn]
        exact Nat.pow_le_pow_right (by omega) (by omega)
      have hp : 0 < 2 ^ s := by positivity
      have hP : 0 < 2 ^ (bits - s - 1) := by positivity
      have hsize : (2 : ℕ) ^ (s + 1) = 2 * 2 ^ s := by rw [pow_succ]; ring
      have hn2 : n = 2 * 2 ^ s * 2 ^ (bits - s - 1) := by
        rw [hn, show 2 * 2 ^ s = 2 ^ (s + 1) from (pow_succ' 2 s).symm, ← pow_add]
        congr 1
        omega
      obtain ⟨hblock, hblock_len⟩ := blockLoop_eq_spec cache n (2 ^ (s + 1)) (2 ^ s)
        (2 ^ (bits - s - 1)) hp hP hsize hn2 hcache d hd
      show (if 2 ^ (s + 1) ≤ n then
          match blockLoop cache n (2 ^ (s + 1)) (n / 2 ^ (s + 1)) d with
          | none => none
          | some d2 => stageLoop cache n fuel (2 ^ (s + 1) * 2) (n / 2 ^ (s + 1) / 2) d2
        else some d) = _ ∧ _
    
      rw [if_pos hle, hblock]
      show stageLoop cache n fuel (2 ^ (s + 1) * 2) (n / 2 ^ (s + 1) / 2)
          (spec_stage cache n (2 ^ (s + 1)) d) = _ ∧ _
      rw [show (2 : ℕ) ^ (s + 1) * 2 = 2 ^ (s + 1 + 1) from by rw [← pow_succ],
        show n / 2 ^ (s + 1) / 2 = n / 2 ^ (s + 1 + 1) from by
          rw [Nat.div_div_eq_div_mul, ← pow_succ]]
      obtain ⟨hrec, hrec_len⟩ := ih (s + 1) (spec_stage cache n (2 ^ (s + 1)) d)
        (by omega) (by omega) hblock_len
      rw [hrec]
      have hrange : List.range' s (bits - s)
          = s :: List.range' (s + 1) (bits - (s + 1)) := by
        obtain ⟨k, hk⟩ : ∃ k, bits - s = k + 1 := ⟨bits - s - 1, by omega⟩
        rw [hk, show bits - (s + 1) = k from by omega, List.range'_succ]
      rw [hrange, List.foldl_cons]
      exact ⟨rfl, hrec_len⟩
    · have hsb' : s = bits := by omega
      subst hsb'
      have hgt : ¬(2 ^ (s + 1) ≤ n) := by
        rw [hn]
        exact Nat.not_le.mpr (Nat.pow_lt_pow_right one_lt_two (by omega))
      show (if 2 ^ (s + 1) ≤ n then
          match blockLoop cache n (2 ^ (s + 1)) (n / 2 ^ (s + 1)) d with
          | none => none
          | some d2 => stageLoop cache n fuel (2 ^ (s + 1) * 2) (n / 2 ^ (s + 1) / 2) d2
        else some d) = _ ∧ _
      rw [if_neg hgt, Nat.sub_self, List.range'_zero, List.foldl_nil]
      exact ⟨rfl, hd⟩

theorem spec_bit_reversal_length {α : Type} [RealLike α] (bits : ℕ) (data : List (Cpx α)) :
    (spec_bit_reversal bits data).length = data.length := by
  show ((List.range data.length).map _).length = data.length
  rw [List.length_map, List.length_range]

theorem compute_twiddle_factors_current_size {α : Type} [RealLike α] (st : FFT α) (n : ℕ) :
    (st.compute_twiddle_factors n).current_size = n := by
  by_cases h : n = st.current_size
  · rw [compute_twiddle_factors_of_eq st n h]
    exact h.symm
  · rw [compute_twiddle_factors_of_ne st n h]

theorem fft_inplace_eq_spec {α : Type} [RealLike α] (st : FFT α) (data : List (Cpx α))
    (bits : ℕ) (hwf : cacheWF st) (hn : data.length = 2 ^ bits) :
    st.fft_inplace data = some (spec_fft_inplace st data) ∧
      cacheWF (spec_fft_inplace st data).1 ∧
      (spec_fft_inplace st data).2.length = data.length := by
  have hwf' : st.twiddle_cache.length = st.current_size := hwf
  have hst : (if data.length ≠ st.current_size then st.compute_twiddle_factors data.length
      else st) = st.compute_twiddle_factors data.length := by
    by_cases h : data.length ≠ st.current_size
    · rw [if_pos h]
    · rw [if_neg h, compute_twiddle_factors_of_eq st data.length (by omega)]
  have hclen : (st.compute_twiddle_factors data.length).twiddle_cache.length = data.length := by
    by_cases h : data.length = st.current_size
    · rw [compute_twiddle_factors_of_eq st _ h]
      omega
    · rw [compute_twiddle_factors_of_ne st _ h]
      exact cacheFor_length α data.length
  have hbr := bit_reverse_eq_spec data bits hn
  have hbrlen : (spec_bit_reversal bits data).length = data.length :=
    spec_bit_reversal_length bits data
  have hbits_le : bits ≤ data.length := by
    have := Nat.lt_two_pow bits
    omega
  obtain ⟨hstage, hstage_len⟩ := stageLoop_eq_spec
    (st.compute_twiddle_factors data.length).twiddle_cache bits data.length hn hclen
    data.length 0 (spec_bit_reversal bits data) (by omega) (by omega) hbrlen
  rw [Nat.sub_zero, ← List.range_eq_range'] at hstage hstage_len
  have hstage2 : stageLoop (st.compute_twiddle_factors data.length).twiddle_cache
      data.length data.length 2 (data.length / 2) (spec_bit_reversal bits data)
      = some ((List.range bits).foldl
          (fun dd s' => spec_stage (st.compute_twiddle_factors data.length).twiddle_cache
            data.length (2 ^ (s' + 1)) dd)
          (spec_bit_reversal bits data)) := hstage
  have hfl : floorLog2 data.length = bits := by rw [hn]; exact floorLog2_pow bits
  refine ⟨?_, ?_, ?_⟩
  · rw [fft_inplace_shape]
    simp only [hst]
    rw [hbr]
    simp only [Option.some_bind]
    rw [hstage2]
    simp only [Option.some_bind]
    simp only [spec_fft_inplace, hfl]
    rfl
  · show (spec_fft_inplace st data).1.twiddle_cache.length
      = (spec_fft_inplace st data).1.current_size
    have h1 : (spec_fft_inplace st data).1 = st.compute_twiddle_factors data.length := rfl
    rw [h1, hclen, compute_twiddle_factors_current_size st data.length]
  · have h2 : (spec_fft_inplace st data).2
        = spec_stages (st.compute_twiddle_factors data.length).twiddle_cache data.length
          (floorLog2 data.length) (spec_bit_reversal (floorLog2 data.length) data) := rfl
    rw [h2, hfl]
    exact hstage_len

/-- Claim C2: on every buffer of power-of-two length (and any engine state
whose cache length matches `current_size`, as every reachable state's does),
the in-place transform equals the reference procedure: ensure the cache
matches `n`, apply the bit-reversal permutation, then run the butterfly
stages with `size` doubling from 2 to `n` and stride `n / size`. -/
theorem fft_inplace_eq_reference {α : Type} [RealLike α] (st : FFT α) (data : List (Cpx α))
    (bits : ℕ) (hwf : st.twiddle_cache.length = st.current_size)
    (hn : data.length = 2 ^ bits) :
    st.fft_inplace data = some (spec_fft_inplace st data) :=
  (fft_inplace_eq_spec st data bits hwf hn).1

theorem fft_inplace_eq_reference_witness :
    ((FFT.new : FFT ℚ).twiddle_cache.length = (FFT.new : FFT ℚ).current_size) ∧
    ([Cpx.new (1 : ℚ) 0, Cpx.new 2 0, Cpx.new 3 0, Cpx.new 4 0].length = 2 ^ 2) ∧
    (FFT.new : FFT ℚ).fft_inplace [Cpx.new 1 0, Cpx.new 2 0, Cpx.new 3 0, Cpx.new 4 0]
      = some (spec_fft_inplace FFT.new [Cpx.new 1 0, Cpx.new 2 0, Cpx.new 3 0, Cpx.new 4 0]) :=
  ⟨rfl, rfl, fft_inplace_eq_reference FFT.new _ 2 rfl rfl⟩

/-! ### Claims C1 and C8: output lengths and totality -/

theorem transform_eq_some {α : Type} [RealLike α] (st : FFT α) (signal : List (Cpx α))
    (hwf : cacheWF st) :
    ∃ st' out, st.transform signal = some (st', out) ∧
      out.length = next_power_of_two signal.length := by
  obtain ⟨hge, hpow, hmin⟩ := next_power_of_two_spec signal.length
  obtain ⟨bits, hbits⟩ := hpow
  have hpadlen : (signal ++ List.replicate (next_power_of_two signal.length - signal.length)
      (Cpx.new 0 0)).length = next_power_of_two signal.length := by
    rw [List.length_append, List.length_replicate]
    omega
  obtain ⟨heq, hwf2, hlen⟩ := fft_inplace_eq_spec st
    (signal ++ List.replicate (next_power_of_two signal.length - signal.length) (Cpx.new 0 0))
    bits hwf (by rw [hpadlen, hbits])
  refine ⟨_, _, heq, ?_⟩
  show (spec_fft_inplace st (signal ++ List.replicate
      (next_power_of_two signal.length - signal.length) (Cpx.new 0 0))).2.length
    = next_power_of_two signal.length
  rw [hlen, hpadlen]

theorem transform_real_eq_some {α : Type} [RealLike α] (st : FFT α) (signal : List α)
    (hwf : cacheWF st) :
    ∃ st' out, st.transform_real signal = some (st', out) ∧
      out.length = next_power_of_two signal.length := by
  obtain ⟨hge, hpow, hmin⟩ := next_power_of_two_spec signal.length
  obtain ⟨bits, hbits⟩ := hpow
  have hpadlen : (signal.map (fun x => Cpx.new x 0)
      ++ List.replicate (next_power_of_two signal.length - signal.length)
        (Cpx.new 0 0)).length = next_power_of_two signal.length := by
    rw [List.length_append, List.length_map, List.length_replicate]
    omega
  obtain ⟨heq, hwf2, hlen⟩ := fft_inplace_eq_spec st
    (signal.map (fun x => Cpx.new x 0)
      ++ List.replicate (next_power_of_two signal.length - signal.length) (Cpx.new 0 0))
    bits hwf (by rw [hpadlen, hbits])
  refine ⟨_, _, heq, ?_⟩
  show (spec_fft_inplace st (signal.map (fun x => Cpx.new x 0) ++ List.replicate
      (next_power_of_two signal.length - signal.length) (Cpx.new 0 0))).2.length
    = next_power_of_two signal.length
  rw [hlen, hpadlen]

/-- Claim C1: both transforms succeed and return a buffer whose length is the
smallest power of two `≥ L` (so `L = 0` gives length 1, the output length is
always a power of two, and it equals `L` exactly when `L` already is one). -/
theorem transform_output_length {α : Type} [RealLike α] (st : FFT α)
    (signal : List (Cpx α)) (rsignal : List α)
    (hwf : st.twiddle_cache.length = st.current_size) :
    (∃ st' out, st.transform signal = some (st', out) ∧
      out.length = next_power_of_two signal.length) ∧
    (∃ st' out, st.transform_real rsignal = some (st', out) ∧
      out.length = next_power_of_two rsignal.length) ∧
    (next_power_of_two signal.length).isPowerOfTwo ∧
    signal.length ≤ next_power_of_two signal.length ∧
    (∀ m, m.isPowerOfTwo → signal.length ≤ m → next_power_of_two signal.length ≤ m) ∧
    (signal.length = 0 → next_power_of_two signal.length = 1) ∧
    (next_power_of_two signal.length = signal.length ↔ signal.length.isPowerOfTwo) := by
  obtain ⟨hge, hpow, hmin⟩ := next_power_of_two_spec signal.length
  exact ⟨transform_eq_some st signal hwf, transform_real_eq_some st rsignal hwf,
    hpow, hge, hmin, fun h => by rw [h]; exact next_power_of_two_zero,
    next_power_of_two_eq_iff signal.length⟩

theorem transform_output_length_witness :
    ((FFT.new : FFT ℚ).twiddle_cache.length = (FFT.new : FFT ℚ).current_size) ∧
    ((∃ st' out, (FFT.new : FFT ℚ).transform [Cpx.new 1 0] = some (st', out) ∧
        out.length = next_power_of_two [Cpx.new (1 : ℚ) 0].length) ∧
      (∃ st' out, (FFT.new : FFT ℚ).transform_real [1, 2, 3] = some (st', out) ∧
        out.length = next_power_of_two [(1 : ℚ), 2, 3].length) ∧
      (next_power_of_two [Cpx.new (1 : ℚ) 0].length).isPowerOfTwo ∧
      [Cpx.new (1 : ℚ) 0].length ≤ next_power_of_two [Cpx.new (1 : ℚ) 0].length ∧
      (∀ m, m.isPowerOfTwo → [Cpx.new (1 : ℚ) 0].length ≤ m →
        next_power_of_two [Cpx.new (1 : ℚ) 0].length ≤ m) ∧
      ([Cpx.new (1 : ℚ) 0].length = 0 → next_power_of_two [Cpx.new (1 : ℚ) 0].length = 1) ∧
      (next_power_of_two [Cpx.new (1 : ℚ) 0].length = [Cpx.new (1 : ℚ) 0].length
        ↔ [Cpx.new (1 : ℚ) 0].length.isPowerOfTwo)) :=
  ⟨rfl, transform_output_length FFT.new [Cpx.new 1 0] [1, 2, 3] rfl⟩

/-- Claim C8: from every reachable engine state, `transform` and
`transform_real` run to completion on every input: every cache and buffer
index taken inside `fft_inplace` and `bit_reverse_permutation` is in bounds
and the stage loop terminates, so no `none` (modelled panic) arises.
`compute_twiddle_factors` and the complex arithmetic are total functions of
the embedding by construction. -/
theorem public_operations_total {α : Type} [RealLike α] (st : FFT α)
    (signal : List (Cpx α)) (rsignal : List α) (hreach : Reachable st) :
    (st.transform signal).isSome ∧ (st.transform_real rsignal).isSome := by
  have hwf : cacheWF st := cacheExact_cacheWF st (reachable_cacheExact st hreach)
  obtain ⟨st1, out1, h1, _⟩ := transform_eq_some st signal hwf
  obtain ⟨st2, out2, h2, _⟩ := transform_real_eq_some st rsignal hwf
  rw [h1, h2]
  exact ⟨rfl, rfl⟩

theorem public_operations_total_witness :
    Reachable (FFT.new : FFT ℚ) ∧
    (((FFT.new : FFT ℚ).transform [Cpx.new 1 0, Cpx.new 2 0]).isSome ∧
      ((FFT.new : FFT ℚ).transform_real [1, 2, 3, 4, 5]).isSome) :=
  ⟨Reachable.new, public_operations_total FFT.new [Cpx.new 1 0, Cpx.new 2 0]
    [1, 2, 3, 4, 5] Reachable.new⟩

/-! ### Claim C4: the twiddle-cache invariant over ℝ -/

theorem toC_mul (a b : Cpx ℝ) : toC (a.mul b) = toC a * toC b := by
  apply Complex.ext <;> (simp [toC, Cpx.mul, Cpx.new]; try ring)

theorem toC_from_polar (theta : ℝ) :
    toC (Cpx.from_polar 1 theta) = Complex.exp ((theta : ℂ) * Complex.I) := by
  rw [Complex.exp_mul_I]
  simp only [toC, Cpx.from_polar, Cpx.new, one_mul]
  rw [show (RealLike.cos : ℝ → ℝ) = Real.cos from rfl,
    show (RealLike.sin : ℝ → ℝ) = Real.sin from rfl,
    Complex.ofReal_cos, Complex.ofReal_sin]

theorem toC_iterFactor (stepc : Cpx ℝ) (k : ℕ) :
    toC (iterFactor stepc k) = toC stepc ^ k := by
  induction k with
  | zero => simp [iterFactor, toC, Cpx.new]
  | succ k ih =>
    rw [show iterFactor stepc (k + 1) = (iterFactor stepc k).mul stepc from rfl,
      toC_mul, ih, pow_succ]

/-- Claim C4: in every reachable engine state with `current_size = n > 0`, the
cache holds exactly `n` entries and entry `k` is the root of unity
`e^{-2πik/n}` (stated through the embedding `toC` into ℂ, with exact real
arithmetic). -/
theorem twiddle_cache_invariant (st : FFT ℝ) (n : ℕ) (hreach : Reachable st)
    (hcs : st.current_size = n) (_hpos : 0 < n) :
    st.twiddle_cache.length = n ∧
    ∀ k, k < n → toC (st.twiddle_cache.getD k (Cpx.new 0 0))
      = Complex.exp (((-(2 * Real.pi * k / n) : ℝ) : ℂ) * Complex.I) := by
  have hexact : st.twiddle_cache = cacheFor ℝ st.current_size :=
    reachable_cacheExact st hreach
  rw [hexact, hcs]
  refine ⟨cacheFor_length ℝ n, fun k hk => ?_⟩
  rw [cacheFor_eq_map, show (RealLike.pi : ℝ) = Real.pi from rfl]
  have hk' : k < ((List.range n).map
      (iterFactor (Cpx.from_polar 1 (-2 * Real.pi / (n : ℝ))))).length := by
    rw [List.length_map, List.length_range]
    exact hk
  rw [List.getD_eq_getElem _ _ hk', List.getElem_map, List.getElem_range,
    toC_iterFactor, toC_from_polar, ← Complex.exp_nat_mul]
  congr 1
  push_cast
  ring

theorem twiddle_cache_invariant_witness :
    Reachable ((FFT.new : FFT ℝ).compute_twiddle_factors 1) ∧
    ((FFT.new : FFT ℝ).compute_twiddle_factors 1).current_size = 1 ∧ 0 < 1 ∧
    (((FFT.new : FFT ℝ).compute_twiddle_factors 1).twiddle_cache.length = 1 ∧
      ∀ k, k < 1 →
        toC (((FFT.new : FFT ℝ).compute_twiddle_factors 1).twiddle_cache.getD k (Cpx.new 0 0))
          = Complex.exp (((-(2 * Real.pi * k / ((1 : ℕ) : ℝ)) : ℝ) : ℂ) * Complex.I)) := by
  have hr : Reachable ((FFT.new : FFT ℝ).compute_twiddle_factors 1) :=
    Reachable.compute 1 Reachable.new
  have hcs : ((FFT.new : FFT ℝ).compute_twiddle_factors 1).current_size = 1 := rfl
  exact ⟨hr, hcs, Nat.one_pos, twiddle_cache_invariant _ 1 hr hcs Nat.one_pos⟩
